import Mathlib

/-!
Verification development for the `streaming-worker` repository: a bridge
between a controlling caller and a long-running background worker that
exchange streams of named messages.  The `Simple` example worker and the
square-loop worker are embedded from the sources; the bridge core
(`streaming-worker.h`) is not present under `src/`, so its data structures
are modelled from the specification, as noted on each definition.
-/

/-- The unit of exchange, embedded from the `Message` class shown in
`src/js/readme.md` (name/data string pair, immutable after construction). -/
structure Message where
  name : String
  data : String
deriving DecidableEq, Repr

/-- Modelled from the spec: the thread-safe controller-to-worker FIFO
(`InboundQueue`, `fromNode` in the readme); `streaming-worker.h` is not in
`src/`.  State is the pending elements in push order plus a closed flag. -/
structure InboundQueue where
  items : List Message
  closed : Bool
deriving DecidableEq, Repr

/-- Modelled from the spec: the outcome of a `pop()` call on the
`InboundQueue` — a message, an explicit end-of-input indication, or the
information that the call would block the worker thread. -/
inductive PopResult
  | msg (m : Message)
  | endOfInput
  | wouldBlock
deriving DecidableEq, Repr

/-- Modelled from the spec: `push(Message)` appends to the tail while the
queue is open; a push on a closed queue is not accepted. -/
def InboundQueue.push (q : InboundQueue) (m : Message) : InboundQueue :=
  if q.closed then q else { q with items := q.items ++ [m] }

/-- Modelled from the spec: `pop()` returns elements strictly in push order;
on a closed empty queue it signals end-of-input instead of blocking; on an
open empty queue the calling thread blocks. -/
def InboundQueue.pop (q : InboundQueue) : PopResult × InboundQueue :=
  match q.items with
  | m :: rest => (.msg m, { q with items := rest })
  | [] => if q.closed then (.endOfInput, q) else (.wouldBlock, q)

/-- Modelled from the spec: `close()` is idempotent and wakes a blocked
`pop()`. -/
def InboundQueue.close (q : InboundQueue) : InboundQueue :=
  { q with closed := true }

/-- Modelled from the spec: the one-time terminal marker of a session. -/
inductive Terminal
  | completed
  | failed (reason : String)
deriving DecidableEq, Repr

/-- Modelled from the spec: the worker-to-controller `OutboundChannel`.
`buffer` holds messages accumulated since the last drain, `terminal` the
at-most-one terminal marker, `delivered` whether the marker has already been
handed out by a drain. -/
structure OutboundChannel where
  buffer : List Message
  terminal : Option Terminal
  delivered : Bool
deriving DecidableEq, Repr

/-- Modelled from the spec: `send(Message)` buffers the message; once a
terminal marker has been set the message is dropped. -/
def OutboundChannel.send (c : OutboundChannel) (m : Message) : OutboundChannel :=
  if c.terminal.isSome then c else { c with buffer := c.buffer ++ [m] }

/-- Modelled from the spec: `signalComplete()` sets the terminal marker
exactly once; a second signal is a defensive no-op. -/
def OutboundChannel.signalComplete (c : OutboundChannel) : OutboundChannel :=
  if c.terminal.isSome then c else { c with terminal := some .completed }

/-- Modelled from the spec: `signalError(reason)` sets the terminal marker
exactly once; a second signal is a defensive no-op. -/
def OutboundChannel.signalError (c : OutboundChannel) (r : String) : OutboundChannel :=
  if c.terminal.isSome then c else { c with terminal := some (.failed r) }

/-- Modelled from the spec: an item handed out by `drain()` — a buffered
message or the terminal marker. -/
inductive DrainItem
  | msg (m : Message)
  | term (t : Terminal)
deriving DecidableEq, Repr

/-- Modelled from the spec: `drain()` returns everything accumulated since
the last drain in order, followed by the terminal marker the first time one
is present, and removes all of it from the channel. -/
def OutboundChannel.drain (c : OutboundChannel) : List DrainItem × OutboundChannel :=
  match c.terminal, c.delivered with
  | some t, false =>
      (c.buffer.map DrainItem.msg ++ [.term t], { c with buffer := [], delivered := true })
  | _, _ => (c.buffer.map DrainItem.msg, { c with buffer := [] })

/-- The empty, open outbound channel a session starts with. -/
def OutboundChannel.init : OutboundChannel := ⟨[], none, false⟩

/-- Modelled from the spec: one operation on the `OutboundChannel`, used to
quantify over arbitrary interleavings of sends, signals and drains. -/
inductive ChanOp
  | send (m : Message)
  | signalComplete
  | signalError (r : String)
  | drain
deriving DecidableEq, Repr

/-- Apply one channel operation, returning the items this operation handed
to the controller (empty except for `drain`). -/
def ChanOp.apply : ChanOp → OutboundChannel → List DrainItem × OutboundChannel
  | .send m, c => ([], c.send m)
  | .signalComplete, c => ([], c.signalComplete)
  | .signalError r, c => ([], c.signalError r)
  | .drain, c => c.drain

/-- Run a sequence of channel operations, concatenating everything drained. -/
def runChanOps : List ChanOp → OutboundChannel → List DrainItem × OutboundChannel
  | [], c => ([], c)
  | op :: ops, c =>
      let p := op.apply c
      let q := runChanOps ops p.2
      (p.1 ++ q.1, q.2)

/-- Whether a drained item is the terminal marker. -/
def DrainItem.isTerm : DrainItem → Bool
  | .msg _ => false
  | .term _ => true

/-- Modelled from the spec: the lifecycle states of a bridge session
(`WorkerState` enum). -/
inductive WorkerState
  | Created
  | Running
  | Draining
  | Terminated
deriving DecidableEq, Repr

/-- Position of a lifecycle state in the monotonic transition order. -/
def WorkerState.rank : WorkerState → Nat
  | .Created => 0
  | .Running => 1
  | .Draining => 2
  | .Terminated => 3

/-- Modelled from the spec: one action of the user-supplied `Execute` body,
as observed by the bridge — send a message, pop the inbound queue (the
continuation receives `none` on end-of-input), return normally, or raise a
failure. -/
inductive WAction (σ : Type)
  | send (m : Message) (next : σ)
  | recv (k : Option Message → σ)
  | done
  | fault (reason : String)

/-- Modelled from the spec: a worker implementation — private state together
with the next `Execute` action from each state. -/
structure Worker (σ : Type) where
  init : σ
  step : σ → WAction σ

/-- Modelled from the spec: a callback invocation observed on the
controller's execution context — the message callback or one of the two
terminal callbacks. -/
inductive Event
  | message (m : Message)
  | complete
  | error (reason : String)
deriving DecidableEq, Repr

/-- Whether an event is a terminal callback (`onComplete` or `onError`). -/
def Event.isTerminal : Event → Bool
  | .message _ => false
  | .complete => true
  | .error _ => true

/-- The messages delivered to the message callback, in delivery order. -/
def messagesOf (evs : List Event) : List Message :=
  evs.filterMap fun
    | .message m => some m
    | _ => none

/-- Translate drained items into controller-side callback invocations. -/
def deliver (items : List DrainItem) : List Event :=
  items.map fun
    | .msg m => .message m
    | .term .completed => .complete
    | .term (.failed r) => .error r

/-- Modelled from the spec: the full state of a bridge session — lifecycle
state, both queues, the worker's private state, and the callbacks fired so
far. -/
structure Bridge (σ : Type) where
  state : WorkerState
  inbound : InboundQueue
  outbound : OutboundChannel
  wstate : σ
  events : List Event

/-- Modelled from the spec: the schedulable atomic steps of a session —
starting the worker thread, a controller push, closing the inbound queue,
one worker action, a periodic drain checkpoint, and the final
drain-and-terminate. -/
inductive BLabel
  | start
  | push (m : Message)
  | closeInbound
  | workerStep
  | drain
  | finalize
deriving DecidableEq, Repr

/-- Modelled from the spec: one small step of the bridge.  Steps that are
not enabled (including a `push` after `Terminated`, which fails with a
"session closed" error) return an error and leave the session unchanged. -/
def bstep {σ : Type} (w : Worker σ) (b : Bridge σ) : BLabel → Except String (Bridge σ)
  | .start =>
      if b.state = .Created then .ok { b with state := .Running }
      else .error "already started"
  | .push m =>
      if b.state = .Terminated then .error "session closed"
      else .ok { b with inbound := b.inbound.push m }
  | .closeInbound => .ok { b with inbound := b.inbound.close }
  | .workerStep =>
      if b.state = .Running then
        match w.step b.wstate with
        | .send m next => .ok { b with outbound := b.outbound.send m, wstate := next }
        | .recv k =>
            match b.inbound.pop with
            | (.msg m, q) => .ok { b with inbound := q, wstate := k (some m) }
            | (.endOfInput, q) => .ok { b with inbound := q, wstate := k none }
            | (.wouldBlock, _) => .error "worker blocked on pop"
        | .done => .ok { b with outbound := b.outbound.signalComplete, state := .Draining }
        | .fault r => .ok { b with outbound := b.outbound.signalError r, state := .Draining }
      else .error "worker not running"
  | .drain =>
      if b.state = .Running then
        let p := b.outbound.drain
        .ok { b with outbound := p.2, events := b.events ++ deliver p.1 }
      else .error "no drain checkpoint"
  | .finalize =>
      if b.state = .Draining then
        let p := b.outbound.drain
        .ok { b with outbound := p.2, events := b.events ++ deliver p.1,
                     state := .Terminated, inbound := b.inbound.close }
      else .error "not draining"

/-- Run a schedule of step labels; a step that is not enabled leaves the
session unchanged. -/
def bsteps {σ : Type} (w : Worker σ) : List BLabel → Bridge σ → Bridge σ
  | [], b => b
  | l :: ls, b =>
      match bstep w b l with
      | .ok b' => bsteps w ls b'
      | .error _ => bsteps w ls b

/-- The initial session state for a freshly constructed bridge. -/
def binit {σ : Type} (w : Worker σ) : Bridge σ :=
  ⟨.Created, ⟨[], false⟩, OutboundChannel.init, w.init, []⟩

/-- The i-th message of the `Simple` example, embedded from
`src/examples/simple/addon/simple-stream.cpp` line 15:
`Message tosend("integer", std::to_string(i))`. -/
def simpleMessage (i : Nat) : Message := ⟨"integer", toString i⟩

/-- One iteration of `Simple::Execute`, embedded from
`src/examples/simple/addon/simple-stream.cpp` lines 13-18: for
`i = 0 .. 99` send `simpleMessage i` via `writeToNode`, then return. -/
def simpleStep (i : Nat) : WAction Nat :=
  if i < 100 then .send (simpleMessage i) (i + 1) else .done

/-- The options object handed to an addon constructor from JavaScript,
modelled as string key/value pairs. -/
def OptionsObject : Type := List (String × String)

/-- The `Simple` worker as built by `create_worker`, embedded from
`src/examples/simple/addon/simple-stream.cpp`: the constructor ignores its
`options` argument (its body is empty), and `Execute` is the loop above. -/
def createSimpleWorker (_options : OptionsObject) : Worker Nat :=
  { init := 0, step := simpleStep }

/-- The full sequence of messages `Simple::Execute` sends, in send order. -/
def simpleSends : List Message := (List.range 100).map simpleMessage

/-- The numeric payload of a message, read back from its decimal digit
string. -/
def numericPayload (m : Message) : Nat :=
  m.data.data.foldl (fun n c => n * 10 + (c.toNat - 48)) 0

/-- Two's-complement wrap of an integer into the range of a 32-bit signed
C++ `int`: the value the machine stores for an overflowing product. -/
def wrap32 (n : Int) : Int := (n + 2 ^ 31) % 2 ^ 32 - 2 ^ 31

/-- Embedded from the square-loop `Execute` in `src/js/readme.md` lines
227-235, over the parsed (`std::stoi`) payloads of the inbound messages:
`do` read a value, send `("square", to_string(value*value))`, `while
(value > 0)`.  The source multiplies 32-bit C++ `int`s, so the product is
taken with 32-bit wrap-around: for `|value| >= 46341` the sent data is the
wrapped product, not the mathematical square. -/
def squareExecute : List Int → List Message
  | [] => []
  | v :: rest =>
      if v > 0 then ⟨"square", toString (wrap32 (v * v))⟩ :: squareExecute rest
      else [⟨"square", toString (wrap32 (v * v))⟩]

/-- The prefix of a value sequence up to and including the first value that
is not strictly positive. -/
def firstSegment : List Int → List Int
  | [] => []
  | v :: rest => if v > 0 then v :: firstSegment rest else [v]

/-- One item of a drained trace is non-terminal on every position but the
last: the terminal marker, when drained, is the last item ever drained. -/
def termLastB : List DrainItem → Bool
  | [] => true
  | [_] => true
  | x :: y :: rest => !x.isTerm && termLastB (y :: rest)

/-- No item of the trace is the terminal marker. -/
def noTermItems (tr : List DrainItem) : Bool := tr.all (fun x => !x.isTerm)

/-- No event of the list is a terminal callback. -/
def noTerminalEvs (evs : List Event) : Bool := evs.all (fun e => !e.isTerminal)

/-- Generic session invariant, modelled from the spec's lifecycle contract:
before `Draining` no terminal marker exists; in `Draining` one does but has
not been delivered; before `Terminated` only message callbacks have fired;
at `Terminated` the events are all delivered messages followed by exactly
one terminal callback, the channel is flushed, and the inbound queue is
closed. -/
def GInv {σ : Type} (b : Bridge σ) : Prop :=
  ((b.state = .Created ∨ b.state = .Running) → b.outbound.terminal = none)
  ∧ (b.state = .Draining → b.outbound.terminal.isSome = true)
  ∧ (b.state ≠ .Terminated → noTerminalEvs b.events = true ∧ b.outbound.delivered = false)
  ∧ (b.state = .Terminated →
      (∃ (msgs : List Message) (t : Event),
        b.events = msgs.map Event.message ++ [t] ∧ t.isTerminal = true)
      ∧ b.outbound.buffer = [] ∧ b.outbound.delivered = true ∧ b.inbound.closed = true)

/-- A trivial worker whose `Execute` returns immediately; used to exhibit
concrete sessions. -/
def unitWorker : Worker Unit := { init := (), step := fun _ => .done }

/-- Private state of the echo worker: waiting on `pop()`, holding a popped
message it is about to send back, or finished after end-of-input. -/
inductive EchoS
  | waiting
  | sending (m : Message)
  | finished
deriving DecidableEq, Repr

/-- The echo worker of the spec's round-trip property: its `Execute` pops
each message and sends it back unchanged, returning at end-of-input. -/
def echoWorker : Worker EchoS :=
  { init := .waiting,
    step := fun
      | .waiting => .recv (fun om =>
          match om with
          | some m => .sending m
          | none => .finished)
      | .sending m => .send m .waiting
      | .finished => .done }

/-- The message the echo worker has popped but not yet sent back. -/
def pendingOf : EchoS → List Message
  | .sending m => [m]
  | _ => []

/-- Every message currently inside the session, in the order it will reach
the controller: delivered, buffered outbound, held by the worker, pending
inbound. -/
def observed (b : Bridge EchoS) : List Message :=
  messagesOf b.events ++ b.outbound.buffer ++ pendingOf b.wstate ++ b.inbound.items

/-- The messages a schedule pushes, in push order. -/
def pushesOf (ls : List BLabel) : List Message :=
  ls.filterMap fun
    | .push m => some m
    | _ => none

/-- The schedule contains no push. -/
def noPush (ls : List BLabel) : Bool :=
  ls.all fun
    | .push _ => false
    | _ => true

/-- Every push of the schedule happens before the first close of the
inbound queue. -/
def pushesBeforeClose : List BLabel → Bool
  | [] => true
  | .closeInbound :: rest => noPush rest
  | _ :: rest => pushesBeforeClose rest

/-- Schedules compatible with a queue that is already closed (no more
pushes) or still open (pushes only before the close). -/
def goodSched (closed : Bool) (ls : List BLabel) : Bool :=
  if closed then noPush ls else pushesBeforeClose ls

/-- Echo-specific session invariant: the worker finishes only once the
inbound queue is closed and empty, and the worker has finished by the time
the session is draining or terminated. -/
def EInv (b : Bridge EchoS) : Prop :=
  (b.wstate = .finished → b.inbound.items = [] ∧ b.inbound.closed = true)
  ∧ ((b.state = .Draining ∨ b.state = .Terminated) → b.wstate = .finished)

/-- A concrete schedule echoing the two messages `a` and `b`. -/
def echoSchedule (a b : Message) : List BLabel :=
  [.start, .push a, .push b, .closeInbound,
   .workerStep, .workerStep, .workerStep, .workerStep, .workerStep, .workerStep,
   .finalize]

/-- The spec's error scenario worker: its `Execute` sends two messages and
then raises a failure. -/
def faultWorker (m1 m2 : Message) (r : String) : Worker Nat :=
  { init := 0,
    step := fun
      | 0 => .send m1 1
      | 1 => .send m2 2
      | _ => .fault r }

/-- The messages the fault worker has yet to send from a given state. -/
def faultSendsAfter (m1 m2 : Message) : Nat → List Message
  | 0 => [m1, m2]
  | 1 => [m2]
  | _ => []

/-- Invariant tying a fault-worker session to its fixed output: message
conservation plus the terminal bookkeeping. -/
def FInv (m1 m2 : Message) (r : String) (b : Bridge Nat) : Prop :=
  messagesOf b.events ++ b.outbound.buffer ++ faultSendsAfter m1 m2 b.wstate = [m1, m2]
  ∧ ((b.state = .Draining ∨ b.state = .Terminated) →
      faultSendsAfter m1 m2 b.wstate = [])
  ∧ (b.state = .Draining → b.outbound.terminal = some (.failed r))
  ∧ (b.state = .Terminated → b.events = [.message m1, .message m2, .error r])

/-- The messages the `Simple` worker has yet to send from loop index `i`. -/
def simpleSendsAfter (i : Nat) : List Message :=
  ((List.range 100).drop i).map simpleMessage

/-- Invariant tying a `Simple`-worker session to its fixed output. -/
def SInv (b : Bridge Nat) : Prop :=
  messagesOf b.events ++ b.outbound.buffer ++ simpleSendsAfter b.wstate = simpleSends
  ∧ ((b.state = .Draining ∨ b.state = .Terminated) → simpleSendsAfter b.wstate = [])
  ∧ (b.state = .Draining → b.outbound.terminal = some .completed)
  ∧ (b.state = .Terminated → b.events = simpleSends.map Event.message ++ [.complete])

/-- A schedule that runs the `Simple` worker to termination: 100 sends, the
return of `Execute`, and the final flush. -/
def simpleSchedule : List BLabel :=
  [.start] ++ List.replicate 101 .workerStep ++ [.finalize]

/-- A session that has already reached `Terminated`, used as a concrete
input. -/
def terminatedSession : Bridge Unit :=
  ⟨.Terminated, ⟨[], true⟩, ⟨[], some .completed, true⟩, (), [.complete]⟩

/-- The message the square-loop worker sends for a parsed value: the
product of the 32-bit `int` multiplication, wrapped on overflow. -/
def squareMessage (v : Int) : Message := ⟨"square", toString (wrap32 (v * v))⟩

/-- Running a concatenated schedule runs the two halves in sequence. -/
lemma bsteps_append {σ : Type} (w : Worker σ) (xs ys : List BLabel) (b : Bridge σ) :
    bsteps w (xs ++ ys) b = bsteps w ys (bsteps w xs b) := by
  induction xs generalizing b with
  | nil => rfl
  | cons l ls ih =>
      simp only [List.cons_append, bsteps]
      cases bstep w b l with
      | ok b' => exact ih b'
      | error s => exact ih b

/-- A predicate preserved by every enabled step is preserved by every run. -/
lemma preserved_bsteps {σ : Type} (w : Worker σ) (X : Bridge σ → Prop)
    (hstep : ∀ b l b', bstep w b l = .ok b' → X b → X b') :
    ∀ ls b, X b → X (bsteps w ls b) := by
  intro ls
  induction ls with
  | nil => intro b h; exact h
  | cons l ls ih =>
      intro b h
      simp only [bsteps]
      cases e : bstep w b l with
      | ok b' => exact ih b' (hstep b l b' e h)
      | error s => exact ih b h


/-- C7: `pop()` on a closed, empty `InboundQueue` does not block: it returns
the explicit end-of-input indication; and a `close()` issued while a `pop()`
would block turns that pop into the same end-of-input indication. -/
theorem pop_closed_end_of_input (q : InboundQueue) :
    (q.closed = true → q.items = [] → q.pop = (.endOfInput, q))
    ∧ ((q.pop).1 = .wouldBlock → q.close.pop = (.endOfInput, q.close)) := by
  constructor
  · intro hc hi
    simp [InboundQueue.pop, hi, hc]
  · intro h
    rcases q with ⟨items, closed⟩
    cases items with
    | nil =>
        cases closed with
        | false => simp [InboundQueue.pop, InboundQueue.close]
        | true => simp [InboundQueue.pop] at h
    | cons m rest => simp [InboundQueue.pop] at h

/-- Concrete instance of `pop_closed_end_of_input`: the closed empty queue
pops to end-of-input, and closing an open empty queue unblocks its pop. -/
theorem pop_closed_end_of_input_witness :
    (InboundQueue.pop ⟨[], true⟩ = (.endOfInput, (⟨[], true⟩ : InboundQueue)))
    ∧ (InboundQueue.close ⟨[], false⟩).pop
        = (.endOfInput, InboundQueue.close ⟨[], false⟩) :=
  ⟨(pop_closed_end_of_input ⟨[], true⟩).1 (by decide) (by decide),
   (pop_closed_end_of_input ⟨[], false⟩).2 (by decide)⟩

/-- C8: a `push` arriving after the session has reached `Terminated` fails
with the "session closed" error, and the rejected push leaves the rest of
the run exactly as if it had never happened. -/
theorem push_after_terminated_rejected {σ : Type} (w : Worker σ) (b : Bridge σ)
    (m : Message) (h : b.state = .Terminated) :
    bstep w b (.push m) = .error "session closed"
    ∧ ∀ ls, bsteps w (.push m :: ls) b = bsteps w ls b := by
  refine ⟨by simp [bstep, h], fun ls => ?_⟩
  simp [bsteps, bstep, h]

/-- Concrete instance of `push_after_terminated_rejected` on a terminated
session. -/
theorem push_after_terminated_rejected_witness :
    bstep unitWorker terminatedSession (.push ⟨"n", "1"⟩) = .error "session closed" :=
  (push_after_terminated_rejected unitWorker terminatedSession ⟨"n", "1"⟩ (by decide)).1

/-- C9: the `Simple` worker's observable behaviour is independent of the
options object supplied at construction: the constructor stores nothing
derived from it, so any two options values yield identical workers and
identical callback sequences on every schedule. -/
theorem simple_options_noninterference (o1 o2 : OptionsObject) :
    createSimpleWorker o1 = createSimpleWorker o2
    ∧ ∀ ls, (bsteps (createSimpleWorker o1) ls (binit (createSimpleWorker o1))).events
        = (bsteps (createSimpleWorker o2) ls (binit (createSimpleWorker o2))).events :=
  ⟨rfl, fun _ => rfl⟩

/-- C10 (counterexample to the claim as stated): the loop's message data is
not always the decimal representation of the mathematical square of the
parsed payload — at payload 50000 the 32-bit `int` product wraps, so the
program sends "-1794967296" where the mathematical square is
"2500000000". -/
theorem square_loop_nonpositive_counterexample :
    squareExecute [50000] = [⟨"square", "-1794967296"⟩]
    ∧ toString ((50000 : Int) * 50000) = "2500000000"
    ∧ squareExecute [50000] ≠ [⟨"square", toString ((50000 : Int) * 50000)⟩] := by
  refine ⟨by decide, by decide, by decide⟩

/-- C10 (amended): the square-loop `Execute` sends one "square" message per
inbound value read — its data the parsed payload's square as computed by
the source's 32-bit `int` multiplication, wrapping on overflow — up to and
including the first value that is not strictly positive, then returns; any
value less than or equal to zero (not only -1) stops the loop, and its
(wrapped) square is still sent before returning. -/
theorem square_loop_nonpositive (vs : List Int) :
    squareExecute vs = (firstSegment vs).map squareMessage
    ∧ ∀ (v : Int) (rest : List Int), v ≤ 0 →
        squareExecute (v :: rest) = [squareMessage v] := by
  constructor
  · induction vs with
    | nil => rfl
    | cons v rest ih =>
        by_cases h : v > 0
        · simp [squareExecute, firstSegment, h, squareMessage, ih]
        · simp [squareExecute, firstSegment, h, squareMessage]
  · intro v rest hv
    have h : ¬ v > 0 := by omega
    simp [squareExecute, h, squareMessage]

/-- Concrete instance of `square_loop_nonpositive`: the loop stops on -3
(a non-positive value other than -1) and still sends its square. -/
theorem square_loop_nonpositive_witness :
    squareExecute [(-3 : Int), 5] = [squareMessage (-3)] :=
  (square_loop_nonpositive []).2 (-3) [5] (by decide)

/-- Characterization of the lifecycle-state change of any enabled step: the
state is unchanged or advances one position along
Created, Running, Draining, Terminated. -/
lemma bstep_state {σ : Type} (w : Worker σ) (b b' : Bridge σ) (l : BLabel)
    (h : bstep w b l = .ok b') :
    b'.state = b.state
    ∨ (b.state = .Created ∧ b'.state = .Running)
    ∨ (b.state = .Running ∧ b'.state = .Draining)
    ∨ (b.state = .Draining ∧ b'.state = .Terminated) := by
  cases l with
  | start =>
      by_cases hc : b.state = .Created
      · simp [bstep, hc] at h
        subst h
        simp [hc]
      · simp [bstep, hc] at h
  | push m =>
      by_cases hc : b.state = .Terminated
      · simp [bstep, hc] at h
      · simp [bstep, hc] at h
        subst h
        simp
  | closeInbound =>
      simp [bstep] at h
      subst h
      simp
  | workerStep =>
      by_cases hr : b.state = .Running
      · simp only [bstep, hr, if_pos] at h
        cases e : w.step b.wstate with
        | send m next =>
            rw [e] at h
            simp at h
            subst h
            simp [hr]
        | recv k =>
            rw [e] at h
            rcases ep : b.inbound.pop with ⟨pr, q⟩
            rw [ep] at h
            cases pr with
            | msg m => simp at h; subst h; simp [hr]
            | endOfInput => simp at h; subst h; simp [hr]
            | wouldBlock => simp at h
        | done =>
            rw [e] at h
            simp at h
            subst h
            simp [hr]
        | fault r =>
            rw [e] at h
            simp at h
            subst h
            simp [hr]
      · simp [bstep, hr] at h
  | drain =>
      by_cases hr : b.state = .Running
      · simp [bstep, hr] at h
        subst h
        simp [hr]
      · simp [bstep, hr] at h
  | finalize =>
      by_cases hd : b.state = .Draining
      · simp [bstep, hd] at h
        subst h
        simp [hd]
      · simp [bstep, hd] at h

/-- The rank never decreases along a run. -/
lemma rank_le_bsteps {σ : Type} (w : Worker σ) (ls : List BLabel) (b : Bridge σ) :
    WorkerState.rank b.state ≤ WorkerState.rank (bsteps w ls b).state := by
  induction ls generalizing b with
  | nil => exact le_refl _
  | cons l ls ih =>
      simp only [bsteps]
      cases e : bstep w b l with
      | error s => exact ih b
      | ok b' =>
          refine le_trans ?_ (ih b')
          rcases bstep_state w b b' l e with h | ⟨h1, h2⟩ | ⟨h1, h2⟩ | ⟨h1, h2⟩
          · rw [h]
          all_goals rw [h1, h2]; decide

/-- C6: the lifecycle state machine is monotonic.  Every enabled step keeps
the state or advances it strictly along Created, Running, Draining,
Terminated; once the state is Draining or Terminated no step re-enters
Running; and along any run from a fresh session the rank never decreases,
so no state is ever revisited. -/
theorem worker_state_monotonic :
    (∀ (σ : Type) (w : Worker σ) (b : Bridge σ) (l : BLabel) (b' : Bridge σ),
      bstep w b l = .ok b' →
        WorkerState.rank b.state ≤ WorkerState.rank b'.state
        ∧ (b'.state ≠ b.state → WorkerState.rank b.state < WorkerState.rank b'.state)
        ∧ ((b.state = .Draining ∨ b.state = .Terminated) → b'.state ≠ .Running))
    ∧ ∀ (σ : Type) (w : Worker σ) (ls more : List BLabel),
        WorkerState.rank (bsteps w ls (binit w)).state
          ≤ WorkerState.rank (bsteps w (ls ++ more) (binit w)).state := by
  constructor
  · intro σ w b l b' h
    rcases bstep_state w b b' l h with h1 | ⟨h1, h2⟩ | ⟨h1, h2⟩ | ⟨h1, h2⟩
    · refine ⟨by rw [h1], fun hc => absurd h1 hc, fun hc hrun => ?_⟩
      rw [h1] at hrun
      rcases hc with hc | hc <;> rw [hc] at hrun <;> exact WorkerState.noConfusion hrun
    · refine ⟨by rw [h1, h2]; decide, fun _ => by rw [h1, h2]; decide, fun hc => ?_⟩
      rcases hc with hc | hc <;> rw [h1] at hc <;> exact absurd hc (by decide)
    · refine ⟨by rw [h1, h2]; decide, fun _ => by rw [h1, h2]; decide, fun _ => ?_⟩
      rw [h2]
      decide
    · refine ⟨by rw [h1, h2]; decide, fun _ => by rw [h1, h2]; decide, fun _ => ?_⟩
      rw [h2]
      decide
  · intro σ w ls more
    rw [bsteps_append]
    exact rank_le_bsteps w more _

/-- Concrete instance of `worker_state_monotonic`: the start step of a fresh
session advances Created to Running. -/
theorem worker_state_monotonic_witness :
    WorkerState.rank (binit unitWorker).state
      ≤ WorkerState.rank (Bridge.mk .Running ⟨[], false⟩ OutboundChannel.init () []).state :=
  ((worker_state_monotonic.1 Unit unitWorker (binit unitWorker) .start
      (Bridge.mk .Running ⟨[], false⟩ OutboundChannel.init () []) rfl)).1

/-- Splitting a channel-operation sequence splits its drained trace. -/
lemma runChanOps_append (xs ys : List ChanOp) (c : OutboundChannel) :
    runChanOps (xs ++ ys) c
      = ((runChanOps xs c).1 ++ (runChanOps ys (runChanOps xs c).2).1,
         (runChanOps ys (runChanOps xs c).2).2) := by
  induction xs generalizing c with
  | nil => rfl
  | cons op ops ih =>
      show ((op.apply c).1 ++ (runChanOps (ops ++ ys) (op.apply c).2).1,
            (runChanOps (ops ++ ys) (op.apply c).2).2)
          = (((op.apply c).1 ++ (runChanOps ops (op.apply c).2).1)
              ++ (runChanOps ys (runChanOps ops (op.apply c).2).2).1,
             (runChanOps ys (runChanOps ops (op.apply c).2).2).2)
      rw [ih (op.apply c).2]
      simp [List.append_assoc]

/-- A `send` is a complete no-op once a terminal marker is set. -/
lemma send_noop_of_terminal (c : OutboundChannel) (m : Message)
    (h : c.terminal.isSome = true) : c.send m = c := by
  simp [OutboundChannel.send, h]

/-- No channel operation ever clears the terminal marker. -/
lemma chanOp_terminal_mono (op : ChanOp) (c : OutboundChannel)
    (h : c.terminal.isSome = true) : ((op.apply c).2).terminal.isSome = true := by
  obtain ⟨t, ht⟩ := Option.isSome_iff_exists.mp h
  cases op with
  | send m => simp [ChanOp.apply, OutboundChannel.send, ht]
  | signalComplete => simp [ChanOp.apply, OutboundChannel.signalComplete, ht]
  | signalError r => simp [ChanOp.apply, OutboundChannel.signalError, ht]
  | drain =>
      cases hd : c.delivered <;> simp [ChanOp.apply, OutboundChannel.drain, ht, hd]

/-- The terminal marker survives any further operation sequence. -/
lemma runChanOps_terminal_mono (ops : List ChanOp) (c : OutboundChannel)
    (h : c.terminal.isSome = true) : ((runChanOps ops c).2).terminal.isSome = true := by
  induction ops generalizing c with
  | nil => exact h
  | cons op ops ih => exact ih (op.apply c).2 (chanOp_terminal_mono op c h)

/-- A rejected send leaves the whole remaining run unchanged. -/
lemma runChanOps_send_noop (ops : List ChanOp) (c : OutboundChannel) (m : Message)
    (h : c.terminal.isSome = true) :
    runChanOps (ChanOp.send m :: ops) c = runChanOps ops c := by
  simp [runChanOps, ChanOp.apply, send_noop_of_terminal c m h]

/-- Once the terminal marker has been handed out and the buffer flushed,
nothing is ever drained again and the channel no longer changes. -/
lemma runChanOps_after_delivery (ops : List ChanOp) (c : OutboundChannel)
    (hd : c.delivered = true) (ht : c.terminal.isSome = true) (hb : c.buffer = []) :
    runChanOps ops c = ([], c) := by
  induction ops generalizing c with
  | nil => rfl
  | cons op ops ih =>
      obtain ⟨t, hts⟩ := Option.isSome_iff_exists.mp ht
      have hstep : op.apply c = ([], c) := by
        cases op with
        | send m => simp [ChanOp.apply, OutboundChannel.send, hts]
        | signalComplete => simp [ChanOp.apply, OutboundChannel.signalComplete, hts]
        | signalError r => simp [ChanOp.apply, OutboundChannel.signalError, hts]
        | drain =>
            rcases c with ⟨buf, term, del⟩
            simp only at hb hd
            subst hb hd
            simp [ChanOp.apply, OutboundChannel.drain, hts]
      simp [runChanOps, hstep, ih c hd ht hb]

/-- A trace whose items are all messages trivially has the terminal marker
last. -/
lemma termLastB_of_noTerm (tr : List DrainItem) (h : noTermItems tr = true) :
    termLastB tr = true := by
  induction tr with
  | nil => rfl
  | cons x rest ih =>
      cases rest with
      | nil => rfl
      | cons y rest2 =>
          simp only [noTermItems, List.all_cons, Bool.and_eq_true] at h
          simp only [termLastB, Bool.and_eq_true]
          exact ⟨h.1, ih (by simp [noTermItems, h.2.1, h.2.2])⟩

/-- Appending the terminal marker to an all-message trace keeps the marker
last. -/
lemma termLastB_append_term (pre : List DrainItem) (t : Terminal)
    (h : noTermItems pre = true) : termLastB (pre ++ [DrainItem.term t]) = true := by
  induction pre with
  | nil => rfl
  | cons x rest ih =>
      simp only [noTermItems, List.all_cons, Bool.and_eq_true] at h
      cases rest with
      | nil => simp [termLastB, h.1]
      | cons y rest2 =>
          simp only [List.cons_append, termLastB, Bool.and_eq_true]
          refine ⟨h.1, ?_⟩
          have := ih (by simp [noTermItems, h.2])
          simpa using this

/-- Shape of every drained trace from an undelivered channel: either no
terminal marker has been drained yet, or the trace is all messages followed
by the one terminal marker, drained last. -/
lemma runChanOps_term_shape (ops : List ChanOp) (c : OutboundChannel)
    (h : c.delivered = false) :
    (noTermItems (runChanOps ops c).1 = true ∧ (runChanOps ops c).2.delivered = false)
    ∨ (∃ pre t, (runChanOps ops c).1 = pre ++ [DrainItem.term t]
        ∧ noTermItems pre = true) := by
  induction ops generalizing c with
  | nil => exact Or.inl ⟨rfl, h⟩
  | cons op ops ih =>
      cases op with
      | send m =>
          have hdel : (c.send m).delivered = c.delivered := by
            simp [OutboundChannel.send]
            split <;> rfl
          have := ih (c.send m) (by rw [hdel]; exact h)
          simpa [runChanOps, ChanOp.apply] using this
      | signalComplete =>
          have hdel : c.signalComplete.delivered = c.delivered := by
            simp [OutboundChannel.signalComplete]
            split <;> rfl
          have := ih c.signalComplete (by rw [hdel]; exact h)
          simpa [runChanOps, ChanOp.apply] using this
      | signalError r =>
          have hdel : (c.signalError r).delivered = c.delivered := by
            simp [OutboundChannel.signalError]
            split <;> rfl
          have := ih (c.signalError r) (by rw [hdel]; exact h)
          simpa [runChanOps, ChanOp.apply] using this
      | drain =>
          cases ht : c.terminal with
          | none =>
              have hdrain : c.drain = (c.buffer.map DrainItem.msg, { c with buffer := [] }) := by
                simp [OutboundChannel.drain, ht]
              have hmsgs : noTermItems (c.buffer.map DrainItem.msg) = true := by
                simp [noTermItems, DrainItem.isTerm]
              rcases ih { c with buffer := [] } h with ⟨h1, h2⟩ | ⟨pre, t, h1, h2⟩
              · refine Or.inl ⟨?_, by simpa [runChanOps, ChanOp.apply, hdrain] using h2⟩
                simp only [runChanOps, ChanOp.apply, hdrain]
                simp only [noTermItems, List.all_append, Bool.and_eq_true]
                exact ⟨hmsgs, h1⟩
              · refine Or.inr ⟨c.buffer.map DrainItem.msg ++ pre, t, ?_, ?_⟩
                · simp only [runChanOps, ChanOp.apply, hdrain, h1, List.append_assoc]
                · simp only [noTermItems, List.all_append, Bool.and_eq_true]
                  exact ⟨hmsgs, h2⟩
          | some t =>
              have hdrain : c.drain
                  = (c.buffer.map DrainItem.msg ++ [.term t],
                     { c with buffer := [], delivered := true }) := by
                simp [OutboundChannel.drain, ht, h]
              have hrest : runChanOps ops { c with buffer := [], delivered := true }
                  = ([], { c with buffer := [], delivered := true }) :=
                runChanOps_after_delivery ops _ rfl (by simp [ht]) rfl
              refine Or.inr ⟨c.buffer.map DrainItem.msg, t, ?_, ?_⟩
              · simp [runChanOps, ChanOp.apply, hdrain, hrest]
              · simp [noTermItems, DrainItem.isTerm]

/-- C3: once a terminal marker is set on the `OutboundChannel`, every
subsequent `send` is a complete no-op — the rejected message never appears
in any later drain — and in every interleaving of sends, signals and drains
the terminal marker is the last item ever drained. -/
theorem outbound_terminal_marker_invariant :
    (∀ ops : List ChanOp, termLastB (runChanOps ops OutboundChannel.init).1 = true)
    ∧ (∀ (ops1 ops2 ops3 : List ChanOp) (m : Message),
        runChanOps (ops1 ++ ChanOp.signalComplete :: (ops2 ++ ChanOp.send m :: ops3))
            OutboundChannel.init
          = runChanOps (ops1 ++ ChanOp.signalComplete :: (ops2 ++ ops3))
              OutboundChannel.init)
    ∧ (∀ (ops1 ops2 ops3 : List ChanOp) (r : String) (m : Message),
        runChanOps (ops1 ++ ChanOp.signalError r :: (ops2 ++ ChanOp.send m :: ops3))
            OutboundChannel.init
          = runChanOps (ops1 ++ ChanOp.signalError r :: (ops2 ++ ops3))
              OutboundChannel.init) := by
  have hsigC : ∀ c : OutboundChannel, (c.signalComplete).terminal.isSome = true := by
    intro c
    cases ht : c.terminal <;> simp [OutboundChannel.signalComplete, ht]
  have hsigE : ∀ (c : OutboundChannel) (r : String),
      ((c.signalError r)).terminal.isSome = true := by
    intro c r
    cases ht : c.terminal <;> simp [OutboundChannel.signalError, ht]
  have hsuffix : ∀ (pre : List ChanOp) (m : Message) (ops3 : List ChanOp),
      ((runChanOps pre OutboundChannel.init).2).terminal.isSome = true →
      runChanOps (pre ++ ChanOp.send m :: ops3) OutboundChannel.init
        = runChanOps (pre ++ ops3) OutboundChannel.init := by
    intro pre m ops3 h
    rw [runChanOps_append, runChanOps_append, runChanOps_send_noop ops3 _ m h]
  have hmid : ∀ (sig : ChanOp),
      (∀ c : OutboundChannel, ((sig.apply c).2).terminal.isSome = true) →
      ∀ (ops1 ops2 ops3 : List ChanOp) (m : Message),
        runChanOps (ops1 ++ sig :: (ops2 ++ ChanOp.send m :: ops3)) OutboundChannel.init
          = runChanOps (ops1 ++ sig :: (ops2 ++ ops3)) OutboundChannel.init := by
    intro sig hsig ops1 ops2 ops3 m
    have e1 : ops1 ++ sig :: (ops2 ++ ChanOp.send m :: ops3)
        = (ops1 ++ sig :: ops2) ++ (ChanOp.send m :: ops3) := by simp
    have e2 : ops1 ++ sig :: (ops2 ++ ops3) = (ops1 ++ sig :: ops2) ++ ops3 := by simp
    rw [e1, e2]
    apply hsuffix
    rw [runChanOps_append]
    show ((runChanOps ops2 ((sig.apply (runChanOps ops1 OutboundChannel.init).2)).2).2).terminal.isSome = true
    exact runChanOps_terminal_mono ops2 _ (hsig (runChanOps ops1 OutboundChannel.init).2)
  refine ⟨?_, ?_, ?_⟩
  · intro ops
    rcases runChanOps_term_shape ops OutboundChannel.init rfl with ⟨h1, _⟩ | ⟨pre, t, h1, h2⟩
    · exact termLastB_of_noTerm _ h1
    · rw [h1]
      exact termLastB_append_term pre t h2
  · intro ops1 ops2 ops3 m
    exact hmid ChanOp.signalComplete (fun c => hsigC c) ops1 ops2 ops3 m
  · intro ops1 ops2 ops3 r m
    exact hmid (ChanOp.signalError r) (fun c => hsigE c r) ops1 ops2 ops3 m

/-- A `send` never changes the terminal marker. -/
lemma send_terminal (c : OutboundChannel) (m : Message) :
    (c.send m).terminal = c.terminal := by
  simp only [OutboundChannel.send]
  split <;> rfl

/-- A `send` never changes the delivered flag. -/
lemma send_delivered (c : OutboundChannel) (m : Message) :
    (c.send m).delivered = c.delivered := by
  simp only [OutboundChannel.send]
  split <;> rfl

/-- After `signalComplete` a terminal marker is present. -/
lemma signalComplete_terminal_isSome (c : OutboundChannel) :
    (c.signalComplete).terminal.isSome = true := by
  cases ht : c.terminal <;> simp [OutboundChannel.signalComplete, ht]

/-- After `signalError` a terminal marker is present. -/
lemma signalError_terminal_isSome (c : OutboundChannel) (r : String) :
    ((c.signalError r)).terminal.isSome = true := by
  cases ht : c.terminal <;> simp [OutboundChannel.signalError, ht]

/-- A `signalComplete` never changes the delivered flag. -/
lemma signalComplete_delivered (c : OutboundChannel) :
    (c.signalComplete).delivered = c.delivered := by
  simp only [OutboundChannel.signalComplete]
  split <;> rfl

/-- A `signalError` never changes the delivered flag. -/
lemma signalError_delivered (c : OutboundChannel) (r : String) :
    ((c.signalError r)).delivered = c.delivered := by
  simp only [OutboundChannel.signalError]
  split <;> rfl

/-- On a fresh channel `signalComplete` sets the Completed marker. -/
lemma signalComplete_terminal_none (c : OutboundChannel) (h : c.terminal = none) :
    c.signalComplete = { c with terminal := some .completed } := by
  simp [OutboundChannel.signalComplete, h]

/-- On a fresh channel `signalError` sets the Failed marker. -/
lemma signalError_terminal_none (c : OutboundChannel) (r : String) (h : c.terminal = none) :
    c.signalError r = { c with terminal := some (.failed r) } := by
  simp [OutboundChannel.signalError, h]

/-- A drain with no terminal marker hands out exactly the buffer. -/
lemma drain_none (c : OutboundChannel) (h : c.terminal = none) :
    c.drain = (c.buffer.map DrainItem.msg, { c with buffer := [] }) := by
  simp [OutboundChannel.drain, h]

/-- The first drain after a terminal marker hands out the buffer followed by
the marker and flushes the channel. -/
lemma drain_some (c : OutboundChannel) (t : Terminal) (ht : c.terminal = some t)
    (hd : c.delivered = false) :
    c.drain = (c.buffer.map DrainItem.msg ++ [.term t],
               { c with buffer := [], delivered := true }) := by
  simp [OutboundChannel.drain, ht, hd]

/-- Delivering a concatenation delivers the parts in order. -/
lemma deliver_append (xs ys : List DrainItem) :
    deliver (xs ++ ys) = deliver xs ++ deliver ys := by
  simp [deliver]

/-- Delivering buffered messages invokes the message callback on each. -/
lemma deliver_msgs (ms : List Message) :
    deliver (ms.map DrainItem.msg) = ms.map Event.message := by
  induction ms with
  | nil => rfl
  | cons m rest ih => simp [deliver] at ih ⊢

/-- Delivering the terminal marker invokes one terminal callback. -/
lemma deliver_term (t : Terminal) :
    ∃ e : Event, deliver [DrainItem.term t] = [e] ∧ e.isTerminal = true := by
  cases t with
  | completed => exact ⟨.complete, rfl, rfl⟩
  | failed r => exact ⟨.error r, rfl, rfl⟩

/-- The function `messagesOf` distributes over concatenation. -/
lemma messagesOf_append (xs ys : List Event) :
    messagesOf (xs ++ ys) = messagesOf xs ++ messagesOf ys := by
  simp [messagesOf]

/-- Message events carry exactly their messages. -/
lemma messagesOf_map_message (ms : List Message) :
    messagesOf (ms.map Event.message) = ms := by
  induction ms with
  | nil => rfl
  | cons m rest ih => simp [messagesOf] at ih ⊢; exact ih

/-- Message events are never terminal callbacks. -/
lemma noTerminalEvs_map_message (ms : List Message) :
    noTerminalEvs (ms.map Event.message) = true := by
  simp [noTerminalEvs, Event.isTerminal]

/-- The function `noTerminalEvs` distributes over concatenation. -/
lemma noTerminalEvs_append (xs ys : List Event) :
    noTerminalEvs (xs ++ ys) = (noTerminalEvs xs && noTerminalEvs ys) := by
  simp [noTerminalEvs]

/-- An event list without terminal callbacks is exactly its messages. -/
lemma eq_map_messagesOf_of_noTerminal (evs : List Event)
    (h : noTerminalEvs evs = true) : evs = (messagesOf evs).map Event.message := by
  induction evs with
  | nil => rfl
  | cons e rest ih =>
      simp only [noTerminalEvs, List.all_cons, Bool.and_eq_true] at h
      cases e with
      | message m =>
          simp only [messagesOf, List.filterMap_cons]
          simpa [messagesOf] using ih (by simpa [noTerminalEvs] using h.2)
      | complete => simp [Event.isTerminal] at h
      | error r => simp [Event.isTerminal] at h

/-- Every enabled step preserves the generic session invariant. -/
lemma gInv_step {σ : Type} (w : Worker σ) (b b' : Bridge σ) (l : BLabel)
    (h : bstep w b l = .ok b') (hi : GInv b) : GInv b' := by
  obtain ⟨g1, g2, g3, g4⟩ := hi
  cases l with
  | start =>
      by_cases hc : b.state = .Created
      · simp only [bstep, hc, if_pos] at h
        simp only [Except.ok.injEq] at h
        subst h
        refine ⟨fun _ => g1 (Or.inl hc), fun hd => by simp at hd,
          fun _ => g3 (by rw [hc]; decide), fun ht => by simp at ht⟩
      · simp [bstep, hc] at h
  | push m =>
      by_cases hc : b.state = .Terminated
      · simp [bstep, hc] at h
      · simp only [bstep, hc, if_neg, if_false] at h
        simp only [Except.ok.injEq] at h
        subst h
        exact ⟨g1, g2, g3, fun ht => absurd ht hc⟩
  | closeInbound =>
      simp only [bstep, Except.ok.injEq] at h
      subst h
      refine ⟨g1, g2, g3, fun ht => ?_⟩
      obtain ⟨he, hb, hd, _⟩ := g4 ht
      exact ⟨he, hb, hd, rfl⟩
  | workerStep =>
      by_cases hr : b.state = .Running
      · simp only [bstep, hr, if_pos] at h
        have hnt : ¬ b.state = .Terminated := by rw [hr]; decide
        cases e : w.step b.wstate with
        | send m next =>
            rw [e] at h
            simp only [Except.ok.injEq] at h
            subst h
            refine ⟨fun _ => ?_, fun hd => by simp at hd,
              fun _ => ⟨(g3 hnt).1, ?_⟩, fun ht => by simp at ht⟩
            · rw [send_terminal]
              exact g1 (Or.inr hr)
            · rw [send_delivered]
              exact (g3 hnt).2
        | recv k =>
            rw [e] at h
            rcases ep : b.inbound.pop with ⟨pr, q⟩
            rw [ep] at h
            cases pr with
            | msg m =>
                simp only [Except.ok.injEq] at h
                subst h
                exact ⟨fun _ => g1 (Or.inr hr), fun hd => by simp at hd,
                  fun _ => g3 hnt, fun ht => by simp at ht⟩
            | endOfInput =>
                simp only [Except.ok.injEq] at h
                subst h
                exact ⟨fun _ => g1 (Or.inr hr), fun hd => by simp at hd,
                  fun _ => g3 hnt, fun ht => by simp at ht⟩
            | wouldBlock => simp at h
        | done =>
            rw [e] at h
            simp only [Except.ok.injEq] at h
            subst h
            refine ⟨fun hd => ?_, fun _ => signalComplete_terminal_isSome _,
              fun _ => ⟨(g3 hnt).1, ?_⟩, fun ht => by simp at ht⟩
            · rcases hd with hd | hd <;> simp at hd
            · rw [signalComplete_delivered]
              exact (g3 hnt).2
        | fault r =>
            rw [e] at h
            simp only [Except.ok.injEq] at h
            subst h
            refine ⟨fun hd => ?_, fun _ => signalError_terminal_isSome _ r,
              fun _ => ⟨(g3 hnt).1, ?_⟩, fun ht => by simp at ht⟩
            · rcases hd with hd | hd <;> simp at hd
            · rw [signalError_delivered]
              exact (g3 hnt).2
      · simp [bstep, hr] at h
  | drain =>
      by_cases hr : b.state = .Running
      · have hnt : ¬ b.state = .Terminated := by rw [hr]; decide
        have ht0 : b.outbound.terminal = none := g1 (Or.inr hr)
        simp only [bstep, hr, if_pos, drain_none b.outbound ht0] at h
        simp only [Except.ok.injEq] at h
        subst h
        refine ⟨fun _ => ht0, fun hd => by simp at hd,
          fun _ => ⟨?_, (g3 hnt).2⟩, fun ht => by simp at ht⟩
        rw [deliver_msgs, noTerminalEvs_append, (g3 hnt).1, noTerminalEvs_map_message]
        rfl
      · simp [bstep, hr] at h
  | finalize =>
      by_cases hd : b.state = .Draining
      · have hnt : ¬ b.state = .Terminated := by rw [hd]; decide
        obtain ⟨t, ht⟩ := Option.isSome_iff_exists.mp (g2 hd)
        have hdel : b.outbound.delivered = false := (g3 hnt).2
        simp only [bstep, hd, if_pos, drain_some b.outbound t ht hdel] at h
        simp only [Except.ok.injEq] at h
        subst h
        refine ⟨fun hs => ?_, fun hs => by simp at hs,
          fun hs => absurd rfl hs, fun _ => ?_⟩
        · rcases hs with hs | hs <;> simp at hs
        · obtain ⟨e, he, hterm⟩ := deliver_term t
          refine ⟨⟨messagesOf b.events ++ b.outbound.buffer, e, ?_, hterm⟩, rfl, rfl, rfl⟩
          show b.events ++ deliver (b.outbound.buffer.map DrainItem.msg ++ [.term t]) = _
          rw [deliver_append, deliver_msgs, he,
            eq_map_messagesOf_of_noTerminal b.events (g3 hnt).1]
          simp [List.map_append, messagesOf_map_message]
      · simp [bstep, hd] at h

/-- A fresh session satisfies the generic invariant. -/
lemma gInv_init {σ : Type} (w : Worker σ) : GInv (binit w) :=
  ⟨fun _ => rfl, fun hd => by simp [binit] at hd, fun _ => ⟨rfl, rfl⟩,
   fun ht => by simp [binit] at ht⟩

/-- The generic invariant holds after any run from a fresh session. -/
lemma gInv_bsteps {σ : Type} (w : Worker σ) (ls : List BLabel) :
    GInv (bsteps w ls (binit w)) :=
  preserved_bsteps w GInv (fun b l b' h hi => gInv_step w b b' l h hi) ls (binit w)
    (gInv_init w)

/-- From a terminated session the only enabled step changes neither the
lifecycle state nor the callback history. -/
lemma step_from_terminated {σ : Type} (w : Worker σ) (b b' : Bridge σ) (l : BLabel)
    (h : bstep w b l = .ok b') (ht : b.state = .Terminated) :
    b'.state = .Terminated ∧ b'.events = b.events := by
  cases l with
  | start => simp [bstep, ht] at h
  | push m => simp [bstep, ht] at h
  | closeInbound =>
      simp only [bstep, Except.ok.injEq] at h
      subst h
      exact ⟨ht, rfl⟩
  | workerStep => simp [bstep, ht] at h
  | drain => simp [bstep, ht] at h
  | finalize => simp [bstep, ht] at h

/-- Once terminated, a session stays terminated and fires no further
callback, whatever is scheduled. -/
lemma bsteps_from_terminated {σ : Type} (w : Worker σ) (ls : List BLabel) :
    ∀ b : Bridge σ, b.state = .Terminated →
      (bsteps w ls b).state = .Terminated ∧ (bsteps w ls b).events = b.events := by
  induction ls with
  | nil => exact fun b ht => ⟨ht, rfl⟩
  | cons l ls ih =>
      intro b ht
      simp only [bsteps]
      cases e : bstep w b l with
      | error s => exact ih b ht
      | ok b' =>
          obtain ⟨h1, h2⟩ := step_from_terminated w b b' l e ht
          obtain ⟨h3, h4⟩ := ih b' h1
          exact ⟨h3, h4.trans h2⟩

/-- C2: per session exactly one terminal callback fires.  Before the session
terminates no terminal callback has fired; once it terminates the callback
history is all delivered messages followed by exactly one terminal callback
(`onComplete` xor `onError`, never both, never neither); and nothing fires
after termination. -/
theorem session_single_terminal_callback {σ : Type} (w : Worker σ) (ls : List BLabel) :
    ((bsteps w ls (binit w)).state ≠ .Terminated →
        noTerminalEvs (bsteps w ls (binit w)).events = true)
    ∧ ((bsteps w ls (binit w)).state = .Terminated →
        ∃ (msgs : List Message) (t : Event),
          (bsteps w ls (binit w)).events = msgs.map Event.message ++ [t]
          ∧ t.isTerminal = true)
    ∧ ((bsteps w ls (binit w)).state = .Terminated →
        ∀ more, (bsteps w more (bsteps w ls (binit w))).events
          = (bsteps w ls (binit w)).events) := by
  obtain ⟨g1, g2, g3, g4⟩ := gInv_bsteps w ls
  exact ⟨fun hnt => (g3 hnt).1, fun ht => (g4 ht).1,
    fun ht more => (bsteps_from_terminated w more _ ht).2⟩

/-- Concrete instance of `session_single_terminal_callback`: a session of
the trivial worker terminates with all messages delivered before its one
terminal callback. -/
theorem session_single_terminal_callback_witness :
    ∃ (msgs : List Message) (t : Event),
      (bsteps unitWorker [.start, .workerStep, .finalize] (binit unitWorker)).events
        = msgs.map Event.message ++ [t] ∧ t.isTerminal = true :=
  (session_single_terminal_callback unitWorker [.start, .workerStep, .finalize]).2.1
    (by decide)

/-- A `signalError` never changes the buffer. -/
lemma signalError_buffer (c : OutboundChannel) (r : String) :
    ((c.signalError r)).buffer = c.buffer := by
  simp only [OutboundChannel.signalError]
  split <;> rfl

/-- A `signalComplete` never changes the buffer. -/
lemma signalComplete_buffer (c : OutboundChannel) :
    (c.signalComplete).buffer = c.buffer := by
  simp only [OutboundChannel.signalComplete]
  split <;> rfl

/-- A fresh fault-worker session satisfies its invariant. -/
lemma fInv_init (m1 m2 : Message) (r : String) :
    FInv m1 m2 r (binit (faultWorker m1 m2 r)) := by
  refine ⟨rfl, fun hd => ?_, fun hd => ?_, fun ht => ?_⟩
  · rcases hd with hd | hd <;> simp [binit] at hd
  · simp [binit] at hd
  · simp [binit] at ht

/-- Every enabled step of a fault-worker session preserves its invariant. -/
lemma fInv_step (m1 m2 : Message) (r : String) (b b' : Bridge Nat) (l : BLabel)
    (h : bstep (faultWorker m1 m2 r) b l = .ok b') (hg : GInv b)
    (hi : FInv m1 m2 r b) : FInv m1 m2 r b' := by
  obtain ⟨f1, f2, f3, f4⟩ := hi
  cases l with
  | start =>
      by_cases hc : b.state = .Created
      · simp only [bstep, hc, if_pos, Except.ok.injEq] at h
        subst h
        refine ⟨f1, fun hd => ?_, fun hd => by simp at hd, fun ht => by simp at ht⟩
        rcases hd with hd | hd <;> simp at hd
      · simp [bstep, hc] at h
  | push m =>
      by_cases hc : b.state = .Terminated
      · simp [bstep, hc] at h
      · simp only [bstep, hc, if_neg, if_false, Except.ok.injEq] at h
        subst h
        exact ⟨f1, f2, f3, f4⟩
  | closeInbound =>
      simp only [bstep, Except.ok.injEq] at h
      subst h
      exact ⟨f1, f2, f3, f4⟩
  | workerStep =>
      by_cases hr : b.state = .Running
      · have ht0 : b.outbound.terminal = none := hg.1 (Or.inr hr)
        simp only [bstep, hr, if_pos] at h
        rcases hw : b.wstate with _ | n
        · rw [hw] at h
          simp only [faultWorker, Except.ok.injEq] at h
          subst h
          have h1 := f1
          rw [hw] at h1
          simp only [faultSendsAfter] at h1
          refine ⟨?_, fun hd => ?_, fun hd => by simp at hd, fun ht => by simp at ht⟩
          · have hsend : b.outbound.send m1
                = { b.outbound with buffer := b.outbound.buffer ++ [m1] } := by
              simp [OutboundChannel.send, ht0]
            show messagesOf b.events ++ (b.outbound.send m1).buffer
                ++ faultSendsAfter m1 m2 1 = [m1, m2]
            rw [hsend]
            simpa [List.append_assoc, faultSendsAfter] using h1
          · rcases hd with hd | hd <;> simp at hd
        · rcases n with _ | n2
          · rw [hw] at h
            simp only [faultWorker, Except.ok.injEq] at h
            subst h
            have h1 := f1
            rw [hw] at h1
            simp only [faultSendsAfter] at h1
            refine ⟨?_, fun hd => ?_, fun hd => by simp at hd, fun ht => by simp at ht⟩
            · have hsend : b.outbound.send m2
                  = { b.outbound with buffer := b.outbound.buffer ++ [m2] } := by
                simp [OutboundChannel.send, ht0]
              show messagesOf b.events ++ (b.outbound.send m2).buffer
                  ++ faultSendsAfter m1 m2 2 = [m1, m2]
              rw [hsend]
              simpa [List.append_assoc, faultSendsAfter] using h1
            · rcases hd with hd | hd <;> simp at hd
          · rw [hw] at h
            simp only [faultWorker, Except.ok.injEq] at h
            subst h
            have hsig : b.outbound.signalError r
                = { b.outbound with terminal := some (.failed r) } :=
              signalError_terminal_none b.outbound r ht0
            refine ⟨?_, fun _ => rfl, fun _ => by rw [hsig], fun ht => by simp at ht⟩
            show messagesOf b.events ++ ((b.outbound.signalError r)).buffer
                ++ faultSendsAfter m1 m2 (n2 + 2) = [m1, m2]
            rw [signalError_buffer]
            rw [hw] at f1
            exact f1
      · simp [bstep, hr] at h
  | drain =>
      by_cases hr : b.state = .Running
      · have ht0 : b.outbound.terminal = none := hg.1 (Or.inr hr)
        simp only [bstep, hr, if_pos, drain_none b.outbound ht0, Except.ok.injEq] at h
        subst h
        refine ⟨?_, fun hd => ?_, fun hd => by simp at hd, fun ht => by simp at ht⟩
        · show messagesOf (b.events ++ deliver (b.outbound.buffer.map DrainItem.msg))
              ++ [] ++ faultSendsAfter m1 m2 b.wstate = [m1, m2]
          rw [deliver_msgs, messagesOf_append, messagesOf_map_message]
          simpa [List.append_assoc] using f1
        · rcases hd with hd | hd <;> simp at hd
      · simp [bstep, hr] at h
  | finalize =>
      by_cases hd : b.state = .Draining
      · have hnt : ¬ b.state = .Terminated := by rw [hd]; decide
        have ht : b.outbound.terminal = some (.failed r) := f3 hd
        have hdel : b.outbound.delivered = false := (hg.2.2.1 hnt).2
        have hempty : faultSendsAfter m1 m2 b.wstate = [] := f2 (Or.inl hd)
        simp only [bstep, hd, if_pos, drain_some b.outbound (.failed r) ht hdel,
          Except.ok.injEq] at h
        subst h
        have hcons : messagesOf b.events ++ b.outbound.buffer = [m1, m2] := by
          have := f1
          rw [hempty] at this
          simpa using this
        refine ⟨?_, fun _ => hempty, fun hs => by simp at hs, fun _ => ?_⟩
        · show messagesOf (b.events
              ++ deliver (b.outbound.buffer.map DrainItem.msg ++ [.term (.failed r)]))
              ++ [] ++ faultSendsAfter m1 m2 b.wstate = [m1, m2]
          rw [deliver_append, deliver_msgs, messagesOf_append, messagesOf_append,
            messagesOf_map_message, hempty]
          show messagesOf b.events ++ (b.outbound.buffer ++ messagesOf [.error r])
              ++ [] ++ [] = [m1, m2]
          simpa [messagesOf, List.append_assoc] using hcons
        · show b.events
              ++ deliver (b.outbound.buffer.map DrainItem.msg ++ [.term (.failed r)])
              = [.message m1, .message m2, .error r]
          rw [deliver_append, deliver_msgs,
            eq_map_messagesOf_of_noTerminal b.events ((hg.2.2.1 hnt)).1]
          have : (messagesOf b.events).map Event.message
              ++ b.outbound.buffer.map Event.message
              = [Event.message m1, Event.message m2] := by
            rw [← List.map_append, hcons]
            rfl
          rw [← List.append_assoc, this]
          rfl
      · simp [bstep, hd] at h

/-- C4: a fault inside `Execute` is caught at the worker-thread boundary and
converted into the Failed terminal marker, never escaping as a raw fault;
and when `Execute` raises after sending two messages, every terminated
session delivers exactly those two messages in order followed by one
`onError` callback and no `onComplete`. -/
theorem execute_fault_error_callback :
    (∀ (σ : Type) (w : Worker σ) (b : Bridge σ) (r : String),
      b.state = .Running → w.step b.wstate = WAction.fault r →
        bstep w b .workerStep
          = .ok { b with outbound := b.outbound.signalError r, state := .Draining })
    ∧ ∀ (m1 m2 : Message) (r : String) (ls : List BLabel),
        (bsteps (faultWorker m1 m2 r) ls (binit (faultWorker m1 m2 r))).state
            = .Terminated →
        (bsteps (faultWorker m1 m2 r) ls (binit (faultWorker m1 m2 r))).events
          = [.message m1, .message m2, .error r] := by
  constructor
  · intro σ w b r hr hf
    simp [bstep, hr, hf]
  · intro m1 m2 r ls ht
    have hx := preserved_bsteps (faultWorker m1 m2 r)
      (fun b => GInv b ∧ FInv m1 m2 r b)
      (fun b l b' h hi => ⟨gInv_step _ b b' l h hi.1, fInv_step m1 m2 r b b' l h hi.1 hi.2⟩)
      ls (binit (faultWorker m1 m2 r)) ⟨gInv_init _, fInv_init m1 m2 r⟩
    exact hx.2.2.2.2 ht

/-- Concrete instance of `execute_fault_error_callback`: a worker that sends
two messages and then raises is observed as both messages in order, then one
`onError`. -/
theorem execute_fault_error_callback_witness :
    (bsteps (faultWorker ⟨"a", "1"⟩ ⟨"b", "2"⟩ "boom")
        [.start, .workerStep, .workerStep, .workerStep, .finalize]
        (binit (faultWorker ⟨"a", "1"⟩ ⟨"b", "2"⟩ "boom"))).events
      = [.message ⟨"a", "1"⟩, .message ⟨"b", "2"⟩, .error "boom"] :=
  execute_fault_error_callback.2 ⟨"a", "1"⟩ ⟨"b", "2"⟩ "boom"
    [.start, .workerStep, .workerStep, .workerStep, .finalize] (by decide)

/-- Peeling one send off the `Simple` worker's remaining output. -/
lemma simpleSendsAfter_cons (i : Nat) (h : i < 100) :
    simpleSendsAfter i = simpleMessage i :: simpleSendsAfter (i + 1) := by
  unfold simpleSendsAfter
  rw [List.drop_eq_getElem_cons (by simpa using h)]
  simp

/-- After the hundredth send nothing remains. -/
lemma simpleSendsAfter_nil (i : Nat) (h : 100 ≤ i) : simpleSendsAfter i = [] := by
  unfold simpleSendsAfter
  rw [List.drop_eq_nil_of_le (by simpa using h)]
  rfl

/-- A fresh `Simple`-worker session satisfies its invariant. -/
lemma sInv_init (opts : OptionsObject) : SInv (binit (createSimpleWorker opts)) := by
  refine ⟨rfl, fun hd => ?_, fun hd => ?_, fun ht => ?_⟩
  · rcases hd with hd | hd <;> simp [binit] at hd
  · simp [binit] at hd
  · simp [binit] at ht

/-- Every enabled step of a `Simple`-worker session preserves its
invariant. -/
lemma sInv_step (opts : OptionsObject) (b b' : Bridge Nat) (l : BLabel)
    (h : bstep (createSimpleWorker opts) b l = .ok b') (hg : GInv b)
    (hi : SInv b) : SInv b' := by
  obtain ⟨s1, s2, s3, s4⟩ := hi
  cases l with
  | start =>
      by_cases hc : b.state = .Created
      · simp only [bstep, hc, if_pos, Except.ok.injEq] at h
        subst h
        refine ⟨s1, fun hd => ?_, fun hd => by simp at hd, fun ht => by simp at ht⟩
        rcases hd with hd | hd <;> simp at hd
      · simp [bstep, hc] at h
  | push m =>
      by_cases hc : b.state = .Terminated
      · simp [bstep, hc] at h
      · simp only [bstep, hc, if_neg, if_false, Except.ok.injEq] at h
        subst h
        exact ⟨s1, s2, s3, s4⟩
  | closeInbound =>
      simp only [bstep, Except.ok.injEq] at h
      subst h
      exact ⟨s1, s2, s3, s4⟩
  | workerStep =>
      by_cases hr : b.state = .Running
      · have ht0 : b.outbound.terminal = none := hg.1 (Or.inr hr)
        simp only [bstep, hr, if_pos] at h
        by_cases hj : b.wstate < 100
        · simp only [createSimpleWorker, simpleStep, hj, if_pos, Except.ok.injEq] at h
          subst h
          refine ⟨?_, fun hd => ?_, fun hd => by simp at hd, fun ht => by simp at ht⟩
          · have hsend : b.outbound.send (simpleMessage b.wstate)
                = { b.outbound with buffer := b.outbound.buffer ++ [simpleMessage b.wstate] } := by
              simp [OutboundChannel.send, ht0]
            show messagesOf b.events ++ (b.outbound.send (simpleMessage b.wstate)).buffer
                ++ simpleSendsAfter (b.wstate + 1) = simpleSends
            rw [hsend]
            rw [simpleSendsAfter_cons b.wstate hj] at s1
            simpa [List.append_assoc] using s1
          · rcases hd with hd | hd <;> simp at hd
        · simp only [createSimpleWorker, simpleStep, hj, if_neg, if_false,
            Except.ok.injEq] at h
          subst h
          have hempty : simpleSendsAfter b.wstate = []
            := simpleSendsAfter_nil b.wstate (Nat.le_of_not_lt hj)
          refine ⟨?_, fun _ => hempty,
            fun _ => by rw [signalComplete_terminal_none b.outbound ht0],
            fun ht => by simp at ht⟩
          show messagesOf b.events ++ (b.outbound.signalComplete).buffer
              ++ simpleSendsAfter b.wstate = simpleSends
          rw [signalComplete_buffer]
          exact s1
      · simp [bstep, hr] at h
  | drain =>
      by_cases hr : b.state = .Running
      · have ht0 : b.outbound.terminal = none := hg.1 (Or.inr hr)
        simp only [bstep, hr, if_pos, drain_none b.outbound ht0, Except.ok.injEq] at h
        subst h
        refine ⟨?_, fun hd => ?_, fun hd => by simp at hd, fun ht => by simp at ht⟩
        · show messagesOf (b.events ++ deliver (b.outbound.buffer.map DrainItem.msg))
              ++ [] ++ simpleSendsAfter b.wstate = simpleSends
          rw [deliver_msgs, messagesOf_append, messagesOf_map_message]
          simpa [List.append_assoc] using s1
        · rcases hd with hd | hd <;> simp at hd
      · simp [bstep, hr] at h
  | finalize =>
      by_cases hd : b.state = .Draining
      · have hnt : ¬ b.state = .Terminated := by rw [hd]; decide
        have ht : b.outbound.terminal = some .completed := s3 hd
        have hdel : b.outbound.delivered = false := (hg.2.2.1 hnt).2
        have hempty : simpleSendsAfter b.wstate = [] := s2 (Or.inl hd)
        simp only [bstep, hd, if_pos, drain_some b.outbound .completed ht hdel,
          Except.ok.injEq] at h
        subst h
        have hcons : messagesOf b.events ++ b.outbound.buffer = simpleSends := by
          have h0 := s1
          rw [hempty] at h0
          simpa using h0
        refine ⟨?_, fun _ => hempty, fun hs => by simp at hs, fun _ => ?_⟩
        · show messagesOf (b.events
              ++ deliver (b.outbound.buffer.map DrainItem.msg ++ [.term .completed]))
              ++ [] ++ simpleSendsAfter b.wstate = simpleSends
          rw [deliver_append, deliver_msgs, messagesOf_append, messagesOf_append,
            messagesOf_map_message, hempty]
          show messagesOf b.events ++ (b.outbound.buffer ++ messagesOf [.complete])
              ++ [] ++ [] = simpleSends
          simpa [messagesOf, List.append_assoc] using hcons
        · show b.events
              ++ deliver (b.outbound.buffer.map DrainItem.msg ++ [.term .completed])
              = simpleSends.map Event.message ++ [.complete]
          rw [deliver_append, deliver_msgs,
            eq_map_messagesOf_of_noTerminal b.events ((hg.2.2.1 hnt)).1]
          have hjoin : (messagesOf b.events).map Event.message
              ++ b.outbound.buffer.map Event.message
              = simpleSends.map Event.message := by
            rw [← List.map_append, hcons]
          rw [← List.append_assoc, hjoin]
          rfl
      · simp [bstep, hd] at h

/-- The numeric payloads of the `Simple` worker's output are 0 through 99 in
order. -/
lemma simpleSends_payloads : simpleSends.map numericPayload = List.range 100 := by
  decide

/-- C5: every terminated session of the `Simple` worker delivers exactly its
100 "integer" messages, in order, followed by `onComplete`; the numeric
payloads are 0..99, strictly ascending, none dropped, none duplicated. -/
theorem simple_hundred_ascending (opts : OptionsObject) (ls : List BLabel)
    (ht : (bsteps (createSimpleWorker opts) ls (binit (createSimpleWorker opts))).state
      = .Terminated) :
    messagesOf (bsteps (createSimpleWorker opts) ls
        (binit (createSimpleWorker opts))).events = simpleSends
    ∧ (bsteps (createSimpleWorker opts) ls (binit (createSimpleWorker opts))).events
        = simpleSends.map Event.message ++ [.complete]
    ∧ (messagesOf (bsteps (createSimpleWorker opts) ls
        (binit (createSimpleWorker opts))).events).length = 100
    ∧ (messagesOf (bsteps (createSimpleWorker opts) ls
        (binit (createSimpleWorker opts))).events).map numericPayload = List.range 100
    ∧ List.Chain' (· < ·) ((messagesOf (bsteps (createSimpleWorker opts) ls
        (binit (createSimpleWorker opts))).events).map numericPayload)
    ∧ ((messagesOf (bsteps (createSimpleWorker opts) ls
        (binit (createSimpleWorker opts))).events).map numericPayload).Nodup := by
  have hx := preserved_bsteps (createSimpleWorker opts)
    (fun b => GInv b ∧ SInv b)
    (fun b l b' h hi => ⟨gInv_step _ b b' l h hi.1, sInv_step opts b b' l h hi.1 hi.2⟩)
    ls (binit (createSimpleWorker opts)) ⟨gInv_init _, sInv_init opts⟩
  have hmsgs : messagesOf (bsteps (createSimpleWorker opts) ls
      (binit (createSimpleWorker opts))).events = simpleSends := by
    rw [hx.2.2.2.2 ht, messagesOf_append, messagesOf_map_message]
    show simpleSends ++ messagesOf [.complete] = simpleSends
    simp [messagesOf]
  refine ⟨hmsgs, hx.2.2.2.2 ht, ?_, ?_, ?_, ?_⟩
  · rw [hmsgs]
    simp [simpleSends]
  · rw [hmsgs]
    exact simpleSends_payloads
  · rw [hmsgs, simpleSends_payloads]
    exact (List.pairwise_lt_range 100).chain'
  · rw [hmsgs, simpleSends_payloads]
    exact List.nodup_range 100

set_option maxRecDepth 10000 in
/-- Concrete instance of `simple_hundred_ascending`: a full run of the
`Simple` worker delivers exactly `simpleSends`. -/
theorem simple_hundred_ascending_witness :
    messagesOf (bsteps (createSimpleWorker []) simpleSchedule
        (binit (createSimpleWorker []))).events = simpleSends :=
  (simple_hundred_ascending [] simpleSchedule (by decide)).1

/-- A pop that returns a message takes it from the head of the queue. -/
lemma pop_eq_msg (q q' : InboundQueue) (m : Message)
    (h : q.pop = (.msg m, q')) :
    q.items = m :: q'.items ∧ q'.closed = q.closed := by
  rcases q with ⟨items, closed⟩
  cases items with
  | nil =>
      cases closed <;> simp [InboundQueue.pop] at h
  | cons x rest =>
      simp only [InboundQueue.pop, Prod.mk.injEq, PopResult.msg.injEq] at h
      obtain ⟨h1, h2⟩ := h
      subst h1
      rw [← h2]
      exact ⟨rfl, rfl⟩

/-- A pop that signals end-of-input leaves a closed empty queue unchanged. -/
lemma pop_eq_endOfInput (q q' : InboundQueue) (h : q.pop = (.endOfInput, q')) :
    q.items = [] ∧ q.closed = true ∧ q' = q := by
  rcases q with ⟨items, closed⟩
  cases items with
  | nil =>
      cases closed with
      | false => simp [InboundQueue.pop] at h
      | true =>
          simp only [InboundQueue.pop, if_pos, Prod.mk.injEq] at h
          exact ⟨rfl, rfl, h.2.symm⟩
  | cons x rest => simp [InboundQueue.pop] at h

/-- A fresh echo session satisfies the echo invariant. -/
lemma eInv_init : EInv (binit echoWorker) := by
  refine ⟨fun hf => ?_, fun hd => ?_⟩
  · simp [binit, echoWorker] at hf
  · rcases hd with hd | hd <;> simp [binit] at hd

/-- Every enabled step preserves the echo invariant. -/
lemma eInv_step (b b' : Bridge EchoS) (l : BLabel)
    (h : bstep echoWorker b l = .ok b') (hi : EInv b) : EInv b' := by
  obtain ⟨e1, e2⟩ := hi
  cases l with
  | start =>
      by_cases hc : b.state = .Created
      · simp only [bstep, hc, if_pos, Except.ok.injEq] at h
        subst h
        exact ⟨e1, fun hd => by rcases hd with hd | hd <;> simp at hd⟩
      · simp [bstep, hc] at h
  | push m =>
      by_cases hc : b.state = .Terminated
      · simp [bstep, hc] at h
      · simp only [bstep, hc, if_neg, if_false, Except.ok.injEq] at h
        subst h
        refine ⟨fun hf => ?_, e2⟩
        have hp : b.inbound.push m = b.inbound := by
          simp [InboundQueue.push, (e1 hf).2]
        show (b.inbound.push m).items = [] ∧ (b.inbound.push m).closed = true
        rw [hp]
        exact e1 hf
  | closeInbound =>
      simp only [bstep, Except.ok.injEq] at h
      subst h
      refine ⟨fun hf => ⟨(e1 hf).1, rfl⟩, e2⟩
  | workerStep =>
      by_cases hr : b.state = .Running
      · simp only [bstep, hr, if_pos] at h
        cases hw : b.wstate with
        | waiting =>
            rw [hw] at h
            simp only [echoWorker] at h
            rcases ep : b.inbound.pop with ⟨pr, q⟩
            rw [ep] at h
            cases pr with
            | msg m =>
                simp only [Except.ok.injEq] at h
                subst h
                exact ⟨fun hf => by simp at hf,
                  fun hd => by rcases hd with hd | hd <;> simp at hd⟩
            | endOfInput =>
                simp only [Except.ok.injEq] at h
                subst h
                obtain ⟨h1, h2, h3⟩ := pop_eq_endOfInput b.inbound q ep
                refine ⟨fun _ => ?_, fun hd => by rcases hd with hd | hd <;> simp at hd⟩
                rw [h3]
                exact ⟨h1, h2⟩
            | wouldBlock => simp at h
        | sending m =>
            rw [hw] at h
            simp only [echoWorker, Except.ok.injEq] at h
            subst h
            exact ⟨fun hf => by simp at hf,
              fun hd => by rcases hd with hd | hd <;> simp at hd⟩
        | finished =>
            rw [hw] at h
            simp only [echoWorker, Except.ok.injEq] at h
            subst h
            exact ⟨fun _ => e1 hw, fun _ => rfl⟩
      · simp [bstep, hr] at h
  | drain =>
      by_cases hr : b.state = .Running
      · rcases hd : b.outbound.drain with ⟨items, ch⟩
        simp only [bstep, hr, if_pos, hd, Except.ok.injEq] at h
        subst h
        exact ⟨e1, fun hd2 => by rcases hd2 with hd2 | hd2 <;> simp at hd2⟩
      · simp [bstep, hr] at h
  | finalize =>
      by_cases hd : b.state = .Draining
      · rcases hdr : b.outbound.drain with ⟨items, ch⟩
        simp only [bstep, hd, if_pos, hdr, Except.ok.injEq] at h
        subst h
        have hf : b.wstate = .finished := e2 (Or.inl hd)
        refine ⟨fun _ => ?_, fun _ => hf⟩
        show (b.inbound.close).items = [] ∧ (b.inbound.close).closed = true
        exact ⟨(e1 hf).1, rfl⟩
      · simp [bstep, hd] at h

/-- Each enabled step changes the multiset of messages inside an echo
session only by appending an accepted push: delivery, buffering, the
worker's hold and the pending inbound items conserve the pushed messages in
order. -/
lemma echo_observed_step (b b' : Bridge EchoS) (l : BLabel)
    (h : bstep echoWorker b l = .ok b') (hg : GInv b) :
    observed b' = observed b
      ++ (match l with
          | .push m => if b.inbound.closed then [] else [m]
          | _ => []) := by
  cases l with
  | start =>
      by_cases hc : b.state = .Created
      · simp only [bstep, hc, if_pos, Except.ok.injEq] at h
        subst h
        simp [observed]
      · simp [bstep, hc] at h
  | push m =>
      by_cases hc : b.state = .Terminated
      · simp [bstep, hc] at h
      · simp only [bstep, hc, if_neg, if_false, Except.ok.injEq] at h
        subst h
        cases hcl : b.inbound.closed with
        | true =>
            have hp : b.inbound.push m = b.inbound := by
              simp [InboundQueue.push, hcl]
            simp [observed, hp, hcl]
        | false =>
            have hp : (b.inbound.push m).items = b.inbound.items ++ [m] := by
              simp [InboundQueue.push, hcl]
            simp [observed, hp, hcl, List.append_assoc]
  | closeInbound =>
      simp only [bstep, Except.ok.injEq] at h
      subst h
      simp [observed, InboundQueue.close]
  | workerStep =>
      by_cases hr : b.state = .Running
      · have ht0 : b.outbound.terminal = none := hg.1 (Or.inr hr)
        simp only [bstep, hr, if_pos] at h
        cases hw : b.wstate with
        | waiting =>
            rw [hw] at h
            simp only [echoWorker] at h
            rcases ep : b.inbound.pop with ⟨pr, q⟩
            rw [ep] at h
            cases pr with
            | msg m =>
                simp only [Except.ok.injEq] at h
                subst h
                obtain ⟨h1, _⟩ := pop_eq_msg b.inbound q m ep
                simp [observed, pendingOf, hw, h1]
            | endOfInput =>
                simp only [Except.ok.injEq] at h
                subst h
                obtain ⟨h1, _, h3⟩ := pop_eq_endOfInput b.inbound q ep
                simp [observed, pendingOf, hw, h1, h3]
            | wouldBlock => simp at h
        | sending m =>
            rw [hw] at h
            simp only [echoWorker, Except.ok.injEq] at h
            subst h
            have hsend : b.outbound.send m
                = { b.outbound with buffer := b.outbound.buffer ++ [m] } := by
              simp [OutboundChannel.send, ht0]
            simp [observed, pendingOf, hw, hsend, List.append_assoc]
        | finished =>
            rw [hw] at h
            simp only [echoWorker, Except.ok.injEq] at h
            subst h
            simp [observed, pendingOf, hw, signalComplete_buffer]
      · simp [bstep, hr] at h
  | drain =>
      by_cases hr : b.state = .Running
      · have ht0 : b.outbound.terminal = none := hg.1 (Or.inr hr)
        simp only [bstep, hr, if_pos, drain_none b.outbound ht0, Except.ok.injEq] at h
        subst h
        simp [observed, deliver_msgs, messagesOf_append, messagesOf_map_message,
          List.append_assoc]
      · simp [bstep, hr] at h
  | finalize =>
      by_cases hd : b.state = .Draining
      · have hnt : ¬ b.state = .Terminated := by rw [hd]; decide
        obtain ⟨t, ht⟩ := Option.isSome_iff_exists.mp (hg.2.1 hd)
        have hdel : b.outbound.delivered = false := (hg.2.2.1 hnt).2
        simp only [bstep, hd, if_pos, drain_some b.outbound t ht hdel,
          Except.ok.injEq] at h
        subst h
        have hmt : messagesOf (deliver [DrainItem.term t]) = [] := by
          cases t <;> rfl
        simp [observed, deliver_append, deliver_msgs, messagesOf_append,
          messagesOf_map_message, hmt, InboundQueue.close, List.append_assoc]
      · simp [bstep, hd] at h

/-- Dropping the head of a push-free schedule keeps it push-free. -/
lemma noPush_tail (l : BLabel) (ls : List BLabel) (h : noPush (l :: ls) = true) :
    noPush ls = true := by
  simp only [noPush, List.all_cons, Bool.and_eq_true] at h
  exact h.2

/-- A good schedule stays good after any head other than the close. -/
lemma goodSched_tail (cl : Bool) (l : BLabel) (ls : List BLabel)
    (hs : goodSched cl (l :: ls) = true) (hl : l ≠ .closeInbound) :
    goodSched cl ls = true := by
  cases cl with
  | true =>
      simp only [goodSched, if_pos] at hs ⊢
      exact noPush_tail l ls hs
  | false =>
      simp only [goodSched, if_neg, Bool.false_eq_true, if_false] at hs ⊢
      cases l with
      | closeInbound => exact absurd rfl hl
      | push m => exact hs
      | start => exact hs
      | workerStep => exact hs
      | drain => exact hs
      | finalize => exact hs

/-- After the close of a good schedule no pushes remain. -/
lemma goodSched_tail_close (cl : Bool) (ls : List BLabel)
    (hs : goodSched cl (.closeInbound :: ls) = true) : goodSched true ls = true := by
  cases cl with
  | true =>
      simp only [goodSched, if_pos] at hs ⊢
      exact noPush_tail _ ls hs
  | false =>
      simp only [goodSched, if_neg, Bool.false_eq_true, if_false, if_pos] at hs ⊢
      exact hs

/-- No enabled step other than the close changes whether the inbound queue
is closed. -/
lemma echo_closed_step (b b' : Bridge EchoS) (l : BLabel)
    (h : bstep echoWorker b l = .ok b') (he : EInv b) (hl : l ≠ .closeInbound) :
    b'.inbound.closed = b.inbound.closed := by
  cases l with
  | start =>
      by_cases hc : b.state = .Created
      · simp only [bstep, hc, if_pos, Except.ok.injEq] at h
        subst h
        rfl
      · simp [bstep, hc] at h
  | push m =>
      by_cases hc : b.state = .Terminated
      · simp [bstep, hc] at h
      · simp only [bstep, hc, if_neg, if_false, Except.ok.injEq] at h
        subst h
        show (b.inbound.push m).closed = b.inbound.closed
        simp only [InboundQueue.push]
        split <;> rfl
  | closeInbound => exact absurd rfl hl
  | workerStep =>
      by_cases hr : b.state = .Running
      · simp only [bstep, hr, if_pos] at h
        cases hw : b.wstate with
        | waiting =>
            rw [hw] at h
            simp only [echoWorker] at h
            rcases ep : b.inbound.pop with ⟨pr, q⟩
            rw [ep] at h
            cases pr with
            | msg m =>
                simp only [Except.ok.injEq] at h
                subst h
                exact (pop_eq_msg b.inbound q m ep).2
            | endOfInput =>
                simp only [Except.ok.injEq] at h
                subst h
                rw [(pop_eq_endOfInput b.inbound q ep).2.2]
            | wouldBlock => simp at h
        | sending m =>
            rw [hw] at h
            simp only [echoWorker, Except.ok.injEq] at h
            subst h
            rfl
        | finished =>
            rw [hw] at h
            simp only [echoWorker, Except.ok.injEq] at h
            subst h
            rfl
      · simp [bstep, hr] at h
  | drain =>
      by_cases hr : b.state = .Running
      · rcases hdr : b.outbound.drain with ⟨items, ch⟩
        simp only [bstep, hr, if_pos, hdr, Except.ok.injEq] at h
        subst h
        rfl
      · simp [bstep, hr] at h
  | finalize =>
      by_cases hd : b.state = .Draining
      · rcases hdr : b.outbound.drain with ⟨items, ch⟩
        simp only [bstep, hd, if_pos, hdr, Except.ok.injEq] at h
        subst h
        show true = b.inbound.closed
        exact ((he.1 (he.2 (Or.inl hd))).2).symm
      · simp [bstep, hd] at h

/-- Along any good schedule an echo session accumulates exactly the pushed
messages, in push order. -/
lemma echo_run (ls : List BLabel) :
    ∀ b : Bridge EchoS, GInv b → EInv b → goodSched b.inbound.closed ls = true →
      observed (bsteps echoWorker ls b) = observed b ++ pushesOf ls := by
  induction ls with
  | nil => intro b _ _ _; simp [bsteps, pushesOf]
  | cons l ls ih =>
      intro b hg he hs
      simp only [bsteps]
      cases e : bstep echoWorker b l with
      | error s =>
          cases l with
          | push m =>
              by_cases hc : b.state = .Terminated
              · have hcl : b.inbound.closed = true := (hg.2.2.2 hc).2.2.2
                rw [hcl] at hs
                simp [goodSched, noPush] at hs
              · simp [bstep, hc] at e
          | closeInbound => simp [bstep] at e
          | start =>
              rw [ih b hg he (goodSched_tail _ _ ls hs (by simp))]
              simp [pushesOf]
          | workerStep =>
              rw [ih b hg he (goodSched_tail _ _ ls hs (by simp))]
              simp [pushesOf]
          | drain =>
              rw [ih b hg he (goodSched_tail _ _ ls hs (by simp))]
              simp [pushesOf]
          | finalize =>
              rw [ih b hg he (goodSched_tail _ _ ls hs (by simp))]
              simp [pushesOf]
      | ok b' =>
          have hobs := echo_observed_step b b' l e hg
          have hg' := gInv_step echoWorker b b' l e hg
          have he' := eInv_step b b' l e he
          cases l with
          | push m =>
              cases hcl : b.inbound.closed with
              | true =>
                  rw [hcl] at hs
                  simp [goodSched, noPush] at hs
              | false =>
                  have hcl' : b'.inbound.closed = false := by
                    rw [echo_closed_step b b' _ e he (by simp), hcl]
                  have hs' : goodSched b'.inbound.closed ls = true := by
                    rw [hcl']
                    rw [hcl] at hs
                    exact goodSched_tail false _ ls hs (by simp)
                  rw [ih b' hg' he' hs', hobs]
                  simp [pushesOf, hcl, List.append_assoc]
          | closeInbound =>
              have hcl' : b'.inbound.closed = true := by
                simp only [bstep, Except.ok.injEq] at e
                rw [← e]
                rfl
              have hs' : goodSched b'.inbound.closed ls = true := by
                rw [hcl']
                exact goodSched_tail_close b.inbound.closed ls hs
              rw [ih b' hg' he' hs', hobs]
              simp [pushesOf]
          | start =>
              have hs' : goodSched b'.inbound.closed ls = true := by
                rw [echo_closed_step b b' _ e he (by simp)]
                exact goodSched_tail _ _ ls hs (by simp)
              rw [ih b' hg' he' hs', hobs]
              simp [pushesOf]
          | workerStep =>
              have hs' : goodSched b'.inbound.closed ls = true := by
                rw [echo_closed_step b b' _ e he (by simp)]
                exact goodSched_tail _ _ ls hs (by simp)
              rw [ih b' hg' he' hs', hobs]
              simp [pushesOf]
          | drain =>
              have hs' : goodSched b'.inbound.closed ls = true := by
                rw [echo_closed_step b b' _ e he (by simp)]
                exact goodSched_tail _ _ ls hs (by simp)
              rw [ih b' hg' he' hs', hobs]
              simp [pushesOf]
          | finalize =>
              have hs' : goodSched b'.inbound.closed ls = true := by
                rw [echo_closed_step b b' _ e he (by simp)]
                exact goodSched_tail _ _ ls hs (by simp)
              rw [ih b' hg' he' hs', hobs]
              simp [pushesOf]

/-- C1: per-channel FIFO round trip.  For every sequence of messages pushed
by the controller (all pushes before the close of the inbound queue), a
terminated session of the echo worker has delivered to the message callback
exactly the pushed messages, in push order — no loss, no duplication, no
reordering. -/
theorem echo_roundtrip_fifo (inputs : List Message) (ls : List BLabel)
    (hp : pushesOf ls = inputs)
    (hb : pushesBeforeClose ls = true)
    (ht : (bsteps echoWorker ls (binit echoWorker)).state = .Terminated) :
    messagesOf (bsteps echoWorker ls (binit echoWorker)).events = inputs := by
  have hgood : goodSched (binit echoWorker).inbound.closed ls = true := by
    show goodSched false ls = true
    simpa [goodSched] using hb
  have hrun := echo_run ls (binit echoWorker) (gInv_init _) eInv_init hgood
  have hg := preserved_bsteps echoWorker (fun b => GInv b ∧ EInv b)
    (fun b l b' h hi => ⟨gInv_step _ b b' l h hi.1, eInv_step b b' l h hi.2⟩)
    ls (binit echoWorker) ⟨gInv_init _, eInv_init⟩
  have hbuf : (bsteps echoWorker ls (binit echoWorker)).outbound.buffer = [] :=
    (hg.1.2.2.2 ht).2.1
  have hfin : (bsteps echoWorker ls (binit echoWorker)).wstate = .finished :=
    hg.2.2 (Or.inr ht)
  have hitems : (bsteps echoWorker ls (binit echoWorker)).inbound.items = [] :=
    (hg.2.1 hfin).1
  have hsplit : observed (bsteps echoWorker ls (binit echoWorker))
      = messagesOf (bsteps echoWorker ls (binit echoWorker)).events := by
    simp [observed, hbuf, hfin, hitems, pendingOf]
  rw [← hsplit, hrun, hp]
  rfl

/-- Concrete instance of `echo_roundtrip_fifo`: two pushed messages come
back to the controller in push order. -/
theorem echo_roundtrip_fifo_witness :
    messagesOf (bsteps echoWorker (echoSchedule ⟨"x", "1"⟩ ⟨"y", "2"⟩)
        (binit echoWorker)).events = [⟨"x", "1"⟩, ⟨"y", "2"⟩] :=
  echo_roundtrip_fifo [⟨"x", "1"⟩, ⟨"y", "2"⟩] (echoSchedule ⟨"x", "1"⟩ ⟨"y", "2"⟩)
    (by decide) (by decide) (by decide)
